import Mathlib

set_option maxRecDepth 100000

/-!
Verification of the Novel-Translator glossary engine (`translator.py`,
`cleanup_glossary.py`).

Python strings are modelled as `List Char` (`Str`).  `str.lower()` is
modelled with `Char.toLower`, which lower-cases the basic latin letters —
the same ASCII range Python's `lower` affects for the identifiers appearing
in the claims.  Python dicts (insertion ordered, unique keys) are modelled
as association lists mutated by `dictInsert` (replace-in-place when the key
exists, append otherwise), which is exactly CPython's observable behaviour
for `d[k] = v` and `d.update(...)`.
-/

abbrev Str := List Char

/-- Literal helper: a Python string literal as a `Str`. -/
def str (s : String) : Str := s.toList

/-- The characters removed by Python's default `str.strip()` and matched by
the regex class `\s` (ASCII part): space, tab, newline, carriage return,
vertical tab, form feed. -/
def isPySpace (c : Char) : Bool :=
  c = ' ' || c = '\t' || c = '\n' || c = '\r' || c = '\x0b' || c = '\x0c'

/-- Python `str.strip()`: drop whitespace from both ends. -/
def stripChars (s : Str) : Str :=
  ((s.dropWhile isPySpace).reverse.dropWhile isPySpace).reverse

/-- Python `str.lower()` (ASCII range, matching `Char.toLower`). -/
def lowerStr (s : Str) : Str := s.map Char.toLower

/-- Python `s.split(c)` for a single-character separator: `"".split(c) = [""]`,
separators at the ends produce empty pieces. -/
def splitOnChar (c : Char) : Str → List Str
  | [] => [[]]
  | x :: xs =>
    match splitOnChar c xs with
    | [] => [[]]
    | l :: ls => if x = c then [] :: l :: ls else (x :: l) :: ls

/-- Python `"\n".join(lines)`. -/
def joinNL : List Str → Str
  | [] => []
  | [l] => l
  | l :: ls => l ++ '\n' :: joinNL ls

/-- `term.split("[")[0].strip().lower() if "[" in term else term.lower()`
(translator.py lines 501-505 and 526-530): the base term used for all
duplicate / stoplist comparisons. -/
def baseTermOf (term : Str) : Str :=
  if '[' ∈ term then lowerStr (stripChars (term.takeWhile (fun c => c ≠ '[')))
  else lowerStr term

/-- A glossary: a Python dict `term -> definition` in insertion order. -/
abbrev Glossary := List (Str × Str)

/-- `d[k] = v` on a Python dict: overwrite in place if the key is present,
append otherwise. -/
def dictInsert (g : Glossary) (k v : Str) : Glossary :=
  if g.any (fun p => p.1 = k) then
    g.map (fun p => if p.1 = k then (k, v) else p)
  else g ++ [(k, v)]

/-- `d.update(other)`: insert the items of `other` in order. -/
def dictUpdate (g : Glossary) (other : Glossary) : Glossary :=
  other.foldl (fun acc p => dictInsert acc p.1 p.2) g

-- Configuration constants (translator.py lines 26-28).
def MAX_GLOSSARY_ENTRIES : Nat := 1000
def MAX_NEW_TERMS_PER_CHAPTER : Nat := 10
def MAX_NEW_TERMS_PER_CHAPTER_STRICT : Nat := 10

/-- The `excluded_terms` stoplist of translator.py (lines 385-490). -/
def excludedTerms : List Str :=
  [ str "magic", str "sword", str "guild", str "king", str "queen",
    str "lord", str "lady", str "master", str "knight", str "warrior",
    str "mage", str "priest", str "merchant", str "guard", str "soldier",
    str "captain", str "general", str "princess", str "prince", str "duke",
    str "count", str "baron", str "noble", str "commoner", str "peasant",
    str "inn", str "tavern", str "shop", str "market", str "street",
    str "road", str "path", str "forest", str "mountain", str "river",
    str "lake", str "sea", str "ocean", str "village", str "town",
    str "city", str "kingdom", str "empire", str "castle", str "palace",
    str "tower", str "wall", str "gate", str "door", str "window",
    str "room", str "hall", str "church", str "temple", str "shrine",
    str "school", str "academy", str "library", str "hospital", str "prison",
    str "weapon", str "armor", str "shield", str "bow", str "arrow",
    str "spear", str "axe", str "dagger", str "staff", str "potion",
    str "scroll", str "book", str "letter", str "map", str "key",
    str "coin", str "gold", str "silver", str "monster", str "demon",
    str "devil", str "angel", str "god", str "goddess", str "spirit",
    str "ghost", str "soul", str "fire", str "water", str "earth",
    str "air", str "wind", str "ice", str "lightning", str "light",
    str "dark", str "power", str "strength", str "speed", str "skill",
    str "ability", str "technique", str "method", str "way" ]

/-- A candidate term proposed by the model for one chapter:
an element of the `new_glossary_terms` array. -/
structure Candidate where
  term : Str
  defn : Str
deriving DecidableEq

/-- One step of the filtering loop of `translate_and_extract_terms` when an
existing glossary is present (translator.py lines 492-519).  `lowers` is
`existing_lower`'s key set: the lower-cased keys of the existing glossary. -/
def pcExisting (lowers : List Str) (c : Candidate) : Option (Str × Str) :=
  let term := stripChars c.term
  let defn := stripChars c.defn
  if term = [] ∨ defn = [] then none
  else
    let base := baseTermOf term
    if base ∈ excludedTerms then none
    else if lowerStr term ∉ lowers ∧ base ∉ lowers ∧
            (∀ ex ∈ lowers, ¬ (base <:+: lowerStr ex)) then
      some (term, defn)
    else none

/-- One step of the filtering loop when no existing glossary is present
(translator.py lines 520-534): only the stoplist check applies. -/
def pcNoExisting (c : Candidate) : Option (Str × Str) :=
  let term := stripChars c.term
  let defn := stripChars c.defn
  if term = [] ∨ defn = [] then none
  else
    let base := baseTermOf term
    if base ∈ excludedTerms then none else some (term, defn)

/-- `filtered_terms` as built by `translate_and_extract_terms`
(translator.py lines 492-534): candidates surviving the stoplist and the
dedup check against the existing glossary, in proposal order. -/
def filteredTerms (existing : Glossary) (cands : List Candidate) :
    List (Str × Str) :=
  if existing.isEmpty then cands.filterMap pcNoExisting
  else cands.filterMap (pcExisting (existing.map (fun p => lowerStr p.1)))

/-- The `new_terms` dict returned for one chapter (translator.py lines
536-548): the first `max_terms` filtered candidates, loaded into a dict. -/
def chapterNewTerms (existing : Glossary) (cands : List Candidate)
    (strict : Bool) : Glossary :=
  let maxT := if strict then MAX_NEW_TERMS_PER_CHAPTER_STRICT
              else MAX_NEW_TERMS_PER_CHAPTER
  ((filteredTerms existing cands).take maxT).foldl
    (fun acc p => dictInsert acc p.1 p.2) []

/-- One chapter's glossary merge as performed by `main`
(translator.py lines 708-721): `cfg.glossary.update(new_terms)`. -/
def mergeChapter (g : Glossary) (cands : List Candidate) (strict : Bool) :
    Glossary :=
  dictUpdate g (chapterNewTerms g cands strict)

/-- The in-memory effect of `Config.save_glossary` (translator.py lines
142-158): when more than `MAX_GLOSSARY_ENTRIES` items are present, keep only
the first ones. -/
def save_glossary (g : Glossary) : Glossary :=
  if g.length > MAX_GLOSSARY_ENTRIES then g.take MAX_GLOSSARY_ENTRIES else g

/-- The rendered line for one entry: `f"{term}: {definition}"`
(translator.py line 152). -/
def lineOf (p : Str × Str) : Str := p.1 ++ ':' :: ' ' :: p.2

/-- The file text written by `Config.save_glossary`:
one `term: definition` line per entry, joined with newlines, plus a final
newline. -/
def renderGlossary (g : Glossary) : Str :=
  joinNL (g.map lineOf) ++ [ '\n' ]

/-- The full file content produced by `Config.save_glossary` (truncation,
then rendering of the kept items). -/
def saveOutput (g : Glossary) : Str := renderGlossary (save_glossary g)

/-- One iteration of `Config._load_glossary`'s parsing loop (translator.py
lines 132-135): keep a line if it strips nonempty and contains a colon,
split it at the first colon, strip both halves.  Empty terms or definitions
are NOT rejected here. -/
def parseLine (acc : Glossary) (line : Str) : Glossary :=
  if stripChars line ≠ [] ∧ ':' ∈ line then
    dictInsert acc (stripChars (line.takeWhile (fun c => c ≠ ':')))
      (stripChars ((line.dropWhile (fun c => c ≠ ':')).tail))
  else acc

/-- `Config._load_glossary`'s line parser (translator.py lines 123-140):
strip the content, split on newlines, process each line. -/
def parseGlossary (content : Str) : Glossary :=
  (splitOnChar '\n' (stripChars content)).foldl parseLine []

/-- `Config._load_glossary`: a missing file yields an empty glossary,
otherwise the content is parsed. -/
def _load_glossary : Option Str → Glossary
  | none => []
  | some content => parseGlossary content

/-- One iteration of `load_glossary` of cleanup_glossary.py (lines 24-31):
same shape as `parseLine`, but the line is stripped before the colon test
and entries with an empty term or definition are skipped. -/
def cleanupLine (acc : Glossary) (l : Str) : Glossary :=
  let line := stripChars l
  if line ≠ [] ∧ ':' ∈ line then
    let t := stripChars (line.takeWhile (fun c => c ≠ ':'))
    let d := stripChars ((line.dropWhile (fun c => c ≠ ':')).tail)
    if t ≠ [] ∧ d ≠ [] then dictInsert acc t d else acc
  else acc

/-- `load_glossary` of cleanup_glossary.py (lines 14-35): a missing file is
reported and yields an empty dict; otherwise every line is processed by
`cleanupLine`. -/
def load_glossary_cleanup : Option Str → Glossary
  | none => []
  | some content => (splitOnChar '\n' content).foldl cleanupLine []

example : stripChars (str "  ab c \n") = str "ab c" := by decide
example : baseTermOf (str "Elena [X]") = str "elena" := by decide
example : baseTermOf (str "Elenara") = str "elenara" := by decide
example : parseGlossary (str "a: b\nc: d\n") = [(str "a", str "b"), (str "c", str "d")] := by decide
example : parseGlossary (str ": x\n") = [([], str "x")] := by decide
example : load_glossary_cleanup (some (str ": x\n")) = [] := by decide
example :
    chapterNewTerms [(str "Elena", str "h")] [⟨str "Elenara", str "k"⟩] false
      = [(str "Elenara", str "k")] := by decide
example :
    chapterNewTerms [(str "Elena", str "h")] [⟨str "Elena [X]", str "k"⟩] false
      = [] := by decide
example :
    chapterNewTerms [(str "Elena [X]", str "h")] [⟨str "Elena", str "k"⟩] false
      = [] := by decide

/-! ### Post-processing of translations (translator.py lines 570-607) -/

/-- Sentence-ending punctuation: the regex class given as a period, an
exclamation mark or a question mark. -/
def isSentencePunct (c : Char) : Bool := c = '.' || c = '!' || c = '?'

/-- The regex class of capital letters A-Z. -/
def isUpperAZ (c : Char) : Bool := 'A' ≤ c && c ≤ 'Z'

/-- Helper for the termination arguments below. -/
theorem dropWhile_eq_cons_length_lt {p : Char → Bool} {l r : Str} {u : Char}
    (h : l.dropWhile p = u :: r) : r.length < l.length := by
  have h1 := (List.dropWhile_sublist (l := l) p).length_le
  rw [h] at h1
  simp only [List.length_cons] at h1
  omega

/-- Net effect of the loop
`while "\n\n\n" in result: result = result.replace("\n\n\n", "\n\n")`
(translator.py lines 591-592): at the loop's fixpoint every maximal run of
three or more newlines has been reduced to exactly two, and nothing else is
changed.  `k` counts the newlines emitted immediately before the current
position. -/
def collapseGo (k : Nat) : Str → Str
  | [] => []
  | c :: rest =>
    if c = '\n' then
      if k ≥ 2 then collapseGo k rest
      else '\n' :: collapseGo (k + 1) rest
    else c :: collapseGo 0 rest

def collapseNL (s : Str) : Str := collapseGo 0 s

/-- `re.sub(r"([.!?])\s+([A-Z])", r"\1\n\n\2", result)` (translator.py line
603).  Since `\s` and `[A-Z]` are disjoint, the greedy `\s+` match never
backtracks usefully: a match starts at sentence punctuation exactly when the
maximal whitespace run after it is nonempty and is followed by a capital
letter; scanning resumes after the consumed capital. -/
def sub1 : Str → Str
  | [] => []
  | c :: rest =>
    if isSentencePunct c then
      match h : rest.dropWhile isPySpace with
      | u :: r2 =>
        if rest.takeWhile isPySpace ≠ [] ∧ isUpperAZ u then
          c :: '\n' :: '\n' :: u :: sub1 r2
        else c :: sub1 rest
      | [] => c :: sub1 rest
    else c :: sub1 rest
termination_by s => s.length
decreasing_by
  all_goals simp only [List.length_cons]
  all_goals try omega
  all_goals (have h1 := dropWhile_eq_cons_length_lt h; omega)

/-- `re.sub(r'([.!?]")\s+([A-Z])', r"\1\n\n\2", result)` (translator.py line
605).  The double-quote character is written via its code point 34. -/
def sub2 : Str → Str
  | [] => []
  | c :: rest =>
    if isSentencePunct c then
      match rest with
      | q :: rest2 =>
        if q.toNat = 34 then
          match h : rest2.dropWhile isPySpace with
          | u :: r2 =>
            if rest2.takeWhile isPySpace ≠ [] ∧ isUpperAZ u then
              c :: q :: '\n' :: '\n' :: u :: sub2 r2
            else c :: sub2 (q :: rest2)
          | [] => c :: sub2 (q :: rest2)
        else c :: sub2 (q :: rest2)
      | [] => [c]
    else c :: sub2 rest
termination_by s => s.length
decreasing_by
  all_goals simp only [List.length_cons]
  all_goals try omega
  all_goals (have h1 := dropWhile_eq_cons_length_lt h; omega)

/-- The whitespace normalisation of `post_process_translation` (translator.py
lines 575-595): strip every line, rejoin with newlines, collapse runs of
blank lines, strip the whole text. -/
def normalizeWs (text : Str) : Str :=
  stripChars (collapseNL (joinNL ((splitOnChar '\n' text).map stripChars)))

/-- `post_process_translation` (translator.py lines 570-607). -/
def post_process_translation (text : Str) : Str :=
  if stripChars text = [] then text
  else
    let result := normalizeWs text
    if '\n' ∉ result ∧ result.length > 500 then sub2 (sub1 result)
    else result

/-- Detector for the claim's hypothesis: the text contains sentence-ending
punctuation followed by whitespace and then a capital letter (the pattern of
the first re.sub). -/
def hasBoundaryB : Str → Bool
  | [] => false
  | c :: rest =>
    (isSentencePunct c &&
      (match rest.dropWhile isPySpace with
       | u :: _ => decide (rest.takeWhile isPySpace ≠ []) && isUpperAZ u
       | [] => false)) || hasBoundaryB rest

/-- The pure core of `translate_and_extract_terms` (translator.py lines
369-550) applied to one successfully parsed structured response: the
post-processed translation and the filtered `new_terms` dict. -/
def translate_and_extract_terms (translation : Str)
    (newTermsArray : List Candidate) (existing : Glossary) (strict : Bool) :
    Str × Glossary :=
  (post_process_translation translation,
   chapterNewTerms existing newTermsArray strict)

/-! ### Chapter sequencing (translator.py `main`, lines 657-735) -/

/-- Python string `<=`: lexicographic comparison by code point. -/
def strLeB : Str → Str → Bool
  | [], _ => true
  | _ :: _, [] => false
  | a :: as, b :: bs =>
    if a.toNat < b.toNat then true
    else if b.toNat < a.toNat then false
    else strLeB as bs

/-- The ordering used by `sorted(cfg.raw_folder.glob("*.txt"))`. -/
def strLe (a b : Str) : Prop := strLeB a b = true

instance : DecidableRel strLe := fun a b => by
  unfold strLe; infer_instance

/-- The order in which `main` processes chapter files: `sorted(...)` on the
filenames, i.e. plain lexicographic order by code point.  Filenames in one
directory are distinct, so any sorting algorithm for this total order
produces the same list as CPython's stable sort. -/
def chapterOrder (files : List Str) : List Str := List.insertionSort strLe files

/-- Outcome of `translate_and_extract_terms` for one chapter: a parsed
structured response, or an exception after retries are exhausted /
a non-transient error (translator.py lines 552-567). -/
inductive TranslateOutcome
  | ok (translation : Str) (cands : List Candidate)
  | err
deriving DecidableEq

/-- The mutable state of one run of `main`: the files written to the
translated folder (name and content, in creation order) and the in-memory
glossary. -/
structure RunState where
  outputs : List (Str × Str)
  glossary : Glossary
deriving DecidableEq

def destNames (st : RunState) : List Str := st.outputs.map Prod.fst

/-- The body of the chapter loop of `main` (translator.py lines 694-730) for
one file: skip if the destination exists; on a translation error leave
everything unchanged and continue; on success write the output file, then
update and save the glossary when new terms were accepted. -/
def processFile (oracle : Str → TranslateOutcome) (noGlossary strict : Bool)
    (st : RunState) (f : Str) : RunState :=
  if f ∈ destNames st then st
  else
    match oracle f with
    | .err => st
    | .ok tr cands =>
      let existing := if noGlossary then [] else st.glossary
      let res := translate_and_extract_terms tr cands existing strict
      let st1 : RunState := ⟨st.outputs ++ [(f, res.1)], st.glossary⟩
      if noGlossary = false ∧ res.2 ≠ [] then
        ⟨st1.outputs, save_glossary (dictUpdate st1.glossary res.2)⟩
      else st1

/-- The chapter loop of `main` over a list of files. -/
def runChapters (oracle : Str → TranslateOutcome) (noGlossary strict : Bool) :
    RunState → List Str → RunState
  | st, [] => st
  | st, f :: fs =>
      runChapters oracle noGlossary strict
        (processFile oracle noGlossary strict st f) fs

/-- The store invariant asserted by the spec (section 3): no two entries
share a base term case-insensitively, and no base term is a substring of
another entry's base term. -/
def storeInvariant (g : Glossary) : Prop :=
  List.Pairwise
    (fun p q => baseTermOf p.1 ≠ baseTermOf q.1 ∧
      ¬ (baseTermOf p.1 <:+: baseTermOf q.1) ∧
      ¬ (baseTermOf q.1 <:+: baseTermOf p.1)) g

example : collapseNL (str "a\n\n\n\nb\n\nc") = str "a\n\nb\n\nc" := by decide
example : normalizeWs (str " a \n\n\n\nb ") = str "a\n\nb" := by decide
example : hasBoundaryB (str "x. Y") = true := by decide
example : hasBoundaryB (str "x.Y") = false := by decide
example : chapterOrder [str "chapter2.txt", str "chapter10.txt"]
    = [str "chapter10.txt", str "chapter2.txt"] := by decide

/-! ### Helper lemmas: characters and strings -/

theorem char_toNat_ofNat {n : Nat} (h : n.isValidChar) :
    (Char.ofNat n).toNat = n := by
  unfold Char.ofNat
  rw [dif_pos h]
  rfl

theorem char_toLower_idem (c : Char) : c.toLower.toLower = c.toLower := by
  have hdef : ∀ d : Char,
      d.toLower = if d.toNat ≥ 65 ∧ d.toNat ≤ 90 then Char.ofNat (d.toNat + 32)
                  else d := fun _ => rfl
  by_cases h : c.toNat ≥ 65 ∧ c.toNat ≤ 90
  · rw [hdef c, if_pos h]
    have hv : Nat.isValidChar (c.toNat + 32) := Or.inl (by omega)
    rw [hdef _, char_toNat_ofNat hv, if_neg (by omega)]
  · rw [hdef c, if_neg h, hdef c, if_neg h]

theorem lowerStr_idem (s : Str) : lowerStr (lowerStr s) = lowerStr s := by
  unfold lowerStr
  rw [List.map_map]
  exact List.map_congr_left (fun c _ => char_toLower_idem c)

/-- Infix decompositions are preserved by `map`. -/
theorem part_map (f : Char → Char) {a b : Str} (h : a <:+: b) :
    a.map f <:+: b.map f := by
  obtain ⟨s, t, rfl⟩ := h
  exact ⟨s.map f, t.map f, by simp⟩

/-- `stripChars s` occurs inside `s`. -/
theorem stripChars_part (s : Str) : stripChars s <:+: s := by
  refine ⟨s.takeWhile isPySpace,
    ((s.dropWhile isPySpace).reverse.takeWhile isPySpace).reverse, ?_⟩
  have h3 : s.dropWhile isPySpace
      = stripChars s
        ++ ((s.dropWhile isPySpace).reverse.takeWhile isPySpace).reverse := by
    unfold stripChars
    conv_lhs => rw [← List.reverse_reverse (s.dropWhile isPySpace)]
    conv_lhs =>
      rw [← List.takeWhile_append_dropWhile (p := isPySpace)
        (l := (s.dropWhile isPySpace).reverse)]
    rw [List.reverse_append]
  rw [List.append_assoc, ← h3]
  exact List.takeWhile_append_dropWhile isPySpace s

/-- The take-before-bracket slice occurs inside the term. -/
theorem takeWhile_part (p : Char → Bool) (s : Str) : s.takeWhile p <:+: s :=
  ⟨[], s.dropWhile p, by simp [List.takeWhile_append_dropWhile]⟩

theorem part_trans {a b c : Str} (h1 : a <:+: b) (h2 : b <:+: c) : a <:+: c := by
  obtain ⟨s1, t1, rfl⟩ := h1
  obtain ⟨s2, t2, rfl⟩ := h2
  exact ⟨s2 ++ s1, t1 ++ t2, by simp⟩

/-- The base term of a key occurs inside the lower-cased key. -/
theorem baseTermOf_part_lower (k : Str) : baseTermOf k <:+: lowerStr k := by
  unfold baseTermOf
  split
  · exact part_map Char.toLower
      (part_trans (stripChars_part _) (takeWhile_part _ k))
  · exact ⟨[], [], by simp⟩

/-- The base term of a key occurs inside the twice-lower-cased key — the
exact string against which `translate_and_extract_terms` runs its
containment scan. -/
theorem baseTermOf_part_lower2 (k : Str) :
    baseTermOf k <:+: lowerStr (lowerStr k) := by
  rw [lowerStr_idem]
  exact baseTermOf_part_lower k

theorem stripChars_eq_nil_iff {s : Str} :
    stripChars s = [] ↔ ∀ c ∈ s, isPySpace c := by
  unfold stripChars
  rw [List.reverse_eq_nil_iff, List.dropWhile_eq_nil_iff]
  constructor
  · intro h c hc
    have hdrop : ∀ x ∈ s.dropWhile isPySpace, isPySpace x :=
      fun x hx => h x (List.mem_reverse.mpr hx)
    have hsplit := List.takeWhile_append_dropWhile isPySpace s
    have hc2 : c ∈ s.takeWhile isPySpace ++ s.dropWhile isPySpace := by
      rw [hsplit]; exact hc
    rcases List.mem_append.mp hc2 with h1 | h1
    · exact List.mem_takeWhile_imp h1
    · exact hdrop c h1
  · intro h x hx
    exact h x (List.dropWhile_subset isPySpace (List.mem_reverse.mp hx))

/-! ### Helper lemmas: dicts and term filtering -/

theorem mem_dictInsert {g : Glossary} {k v : Str} {p : Str × Str}
    (h : p ∈ dictInsert g k v) : p ∈ g ∨ p = (k, v) := by
  unfold dictInsert at h
  split at h
  · rcases List.mem_map.mp h with ⟨q, hq, hqe⟩
    by_cases hk : q.1 = k
    · right; rw [if_pos hk] at hqe; exact hqe.symm
    · left; rw [if_neg hk] at hqe; exact hqe ▸ hq
  · rcases List.mem_append.mp h with h1 | h1
    · exact Or.inl h1
    · right; simpa using h1

theorem keys_dictInsert {g : Glossary} {k v k' : Str}
    (h : k' ∈ (dictInsert g k v).map Prod.fst) :
    k' ∈ g.map Prod.fst ∨ k' = k := by
  rcases List.mem_map.mp h with ⟨p, hp, hpe⟩
  rcases mem_dictInsert hp with h1 | h1
  · exact Or.inl (hpe ▸ List.mem_map_of_mem Prod.fst h1)
  · right; rw [h1] at hpe; exact hpe.symm

theorem keys_dictUpdate {ts g : Glossary} {k : Str}
    (h : k ∈ (dictUpdate g ts).map Prod.fst) :
    k ∈ g.map Prod.fst ∨ k ∈ ts.map Prod.fst := by
  induction ts generalizing g with
  | nil => exact Or.inl h
  | cons t ts ih =>
    have h2 : dictUpdate g (t :: ts) = dictUpdate (dictInsert g t.1 t.2) ts := rfl
    rw [h2] at h
    rcases ih h with h1 | h1
    · rcases keys_dictInsert h1 with h3 | h3
      · exact Or.inl h3
      · right; rw [h3, List.map_cons]; exact List.mem_cons_self t.1 _
    · right; rw [List.map_cons]; exact List.mem_cons_of_mem t.1 h1

/-- When a candidate's base term occurs inside some lower-cased existing
key, the filter step rejects it. -/
theorem pcExisting_rejects {lowers : List Str} {c : Candidate} {ex : Str}
    (hex : ex ∈ lowers)
    (hsub : baseTermOf (stripChars c.term) <:+: lowerStr ex) :
    pcExisting lowers c = none := by
  simp only [pcExisting]
  split
  · rfl
  · split
    · rfl
    · exact if_neg (fun hcond => hcond.2.2 ex hex hsub)

/-- Every pair surviving the filter against a nonempty glossary satisfies
the three code-side conditions. -/
theorem filteredTerms_sound {existing : Glossary} {cands : List Candidate}
    {t d : Str} (hne : existing ≠ [])
    (h : (t, d) ∈ filteredTerms existing cands) :
    lowerStr t ∉ existing.map (fun p => lowerStr p.1) ∧
    baseTermOf t ∉ existing.map (fun p => lowerStr p.1) ∧
    ∀ e ∈ existing.map (fun p => lowerStr p.1),
      ¬ (baseTermOf t <:+: lowerStr e) := by
  unfold filteredTerms at h
  rw [if_neg (by simpa using hne)] at h
  rcases List.mem_filterMap.mp h with ⟨c, _, hc⟩
  simp only [pcExisting] at hc
  split at hc
  · exact absurd hc (by simp)
  · split at hc
    · exact absurd hc (by simp)
    · split at hc
      · rcases Option.some.inj hc with he
        have ht : stripChars c.term = t := congrArg Prod.fst he
        rename_i hcond
        rw [ht] at hcond
        exact hcond
      · exact absurd hc (by simp)

/-! ### Helper lemmas: lexicographic ordering of filenames -/

theorem strLeB_cons_iff {x y : Char} {xs ys : Str} :
    strLeB (x :: xs) (y :: ys) = true ↔
      x.toNat < y.toNat ∨ (x.toNat = y.toNat ∧ strLeB xs ys = true) := by
  simp only [strLeB]
  rcases Nat.lt_trichotomy x.toNat y.toNat with h | h | h
  · rw [if_pos h]
    simp [h]
  · rw [if_neg (by omega), if_neg (by omega)]
    simp [h]
  · rw [if_neg (by omega), if_pos h]
    simp [show ¬ x.toNat < y.toNat by omega, show ¬ x.toNat = y.toNat by omega]

theorem strLeB_total : ∀ a b : Str, strLeB a b = true ∨ strLeB b a = true := by
  intro a
  induction a with
  | nil => intro b; exact Or.inl rfl
  | cons x xs ih =>
    intro b
    cases b with
    | nil => exact Or.inr rfl
    | cons y ys =>
      rw [strLeB_cons_iff, strLeB_cons_iff]
      rcases Nat.lt_trichotomy x.toNat y.toNat with h | h | h
      · exact Or.inl (Or.inl h)
      · rcases ih ys with h2 | h2
        · exact Or.inl (Or.inr ⟨h, h2⟩)
        · exact Or.inr (Or.inr ⟨h.symm, h2⟩)
      · exact Or.inr (Or.inl h)

theorem strLeB_trans : ∀ a b c : Str, strLeB a b = true → strLeB b c = true →
    strLeB a c = true := by
  intro a
  induction a with
  | nil => intro b c _ _; rfl
  | cons x xs ih =>
    intro b c hab hbc
    cases b with
    | nil => simp [strLeB] at hab
    | cons y ys =>
      cases c with
      | nil => simp [strLeB] at hbc
      | cons z zs =>
        rw [strLeB_cons_iff] at hab hbc ⊢
        rcases hab with h1 | ⟨h1, h1r⟩ <;> rcases hbc with h2 | ⟨h2, h2r⟩
        · exact Or.inl (by omega)
        · exact Or.inl (by omega)
        · exact Or.inl (by omega)
        · exact Or.inr ⟨by omega, ih ys zs h1r h2r⟩

instance : IsTotal Str strLe := ⟨fun a b => strLeB_total a b⟩

instance : IsTrans Str strLe := ⟨fun a b c => strLeB_trans a b c⟩

/-! ### Claims C5 and C6 -/

/-- C5 (corrected): after every `save_glossary` the store holds at most
`MAX_GLOSSARY_ENTRIES` entries, and when the cap is exceeded the store is
truncated to its FIRST `MAX_GLOSSARY_ENTRIES` entries — the oldest entries
are kept and the newest are evicted, not the other way around. -/
theorem save_glossary_cap_keeps_oldest (g : Glossary) :
    save_glossary g = g.take MAX_GLOSSARY_ENTRIES ∧
    (save_glossary g).length ≤ MAX_GLOSSARY_ENTRIES := by
  unfold save_glossary
  split
  · exact ⟨rfl, by simp [List.length_take]⟩
  · rename_i hle
    push_neg at hle
    exact ⟨(List.take_of_length_le hle).symm, hle⟩

/-- A 1001-entry store: keys are the decimal numerals 0 .. 1000 in
insertion order (oldest first), values all `"d"`. -/
def gBig : Glossary := (List.range 1001).map (fun i => (Nat.toDigits 10 i, [ 'd' ]))

/-- C5 counterexample: saving a 1001-entry store keeps the oldest entry
(key "0") and evicts the newest (key "1000"), contradicting the claim that
the oldest entries are evicted first. -/
theorem save_glossary_keeps_head : gBig.length = 1001 ∧
    (Nat.toDigits 10 0, [ 'd' ]) ∈ save_glossary gBig ∧
    (Nat.toDigits 10 1000, [ 'd' ]) ∉ save_glossary gBig :=
  ⟨by decide, by decide, by decide⟩

/-- C6 (corrected): `main` visits chapter files in plain lexicographic
(code point) order of their filenames — the output of `chapterOrder` is
sorted by `strLe` and is a permutation of the input files. -/
theorem chapterOrder_lexicographic (files : List Str) :
    List.Sorted strLe (chapterOrder files) ∧ List.Perm (chapterOrder files) files :=
  ⟨List.sorted_insertionSort strLe files, List.perm_insertionSort strLe files⟩

/-- C6 counterexample: "chapter10.txt" is processed BEFORE "chapter2.txt",
so the embedded numeric components are not compared numerically. -/
theorem chapterOrder_not_natural :
    chapterOrder [str "chapter2.txt", str "chapter10.txt"]
      = [str "chapter10.txt", str "chapter2.txt"] := by decide

/-! ### Claims C1 to C4 -/

/-- Shared helper: a single-candidate batch whose base term occurs inside
the lower-cased full key of some existing entry is fully rejected by the
filter. -/
theorem chapterNewTerms_single_rejected (g : Glossary) (c : Candidate)
    (strict : Bool) (k : Str) (hk : k ∈ g.map Prod.fst)
    (hsub : baseTermOf (stripChars c.term) <:+: lowerStr k) :
    chapterNewTerms g [c] strict = [] := by
  have hne : g ≠ [] := by
    intro hg
    rw [hg] at hk
    simp at hk
  have hlow : lowerStr k ∈ g.map (fun p => lowerStr p.1) := by
    rcases List.mem_map.mp hk with ⟨p, hp, hpe⟩
    exact List.mem_map.mpr ⟨p, hp, by rw [hpe]⟩
  have hsub2 : baseTermOf (stripChars c.term) <:+: lowerStr (lowerStr k) := by
    rw [lowerStr_idem]
    exact hsub
  have hrej : pcExisting (g.map (fun p => lowerStr p.1)) c = none :=
    pcExisting_rejects hlow hsub2
  have hfil : filteredTerms g [c] = [] := by
    unfold filteredTerms
    rw [if_neg (by simpa using hne), List.filterMap_cons, hrej]
    rfl
  unfold chapterNewTerms
  rw [hfil]
  simp

/-- C4: merging a single-candidate batch whose base term (case-folded)
already equals the base term of some entry of the store leaves the store
unchanged — size and content. -/
theorem merge_duplicate_base_is_noop (g : Glossary) (c : Candidate)
    (strict : Bool)
    (h : ∃ k ∈ g.map Prod.fst, baseTermOf (stripChars c.term) = baseTermOf k) :
    mergeChapter g [c] strict = g := by
  obtain ⟨k, hk, heq⟩ := h
  unfold mergeChapter
  rw [chapterNewTerms_single_rejected g c strict k hk
    (by rw [heq]; exact baseTermOf_part_lower k)]
  rfl

/-- C4 witness: an existing entry "Elena", a candidate "ELENA [E]" whose
base term "elena" matches case-insensitively: the merge is a no-op. -/
theorem merge_duplicate_base_is_noop_w :
    mergeChapter [(str "Elena", str "the heroine")]
      [⟨str "ELENA [E]", str "dup"⟩] false
      = [(str "Elena", str "the heroine")] :=
  merge_duplicate_base_is_noop _ _ false ⟨str "Elena", by decide, by decide⟩

/-- C2 (corrected): a candidate is rejected when its base term (case-folded)
equals the base term of an existing entry, or occurs as a substring of an
existing entry's full lower-cased key; the opposite containment direction is
NOT checked by the code. -/
theorem dedup_rejects_contained_candidate (g : Glossary) (c : Candidate)
    (strict : Bool) (k : Str) (hk : k ∈ g.map Prod.fst)
    (h : baseTermOf (stripChars c.term) = baseTermOf k ∨
         baseTermOf (stripChars c.term) <:+: lowerStr k) :
    chapterNewTerms g [c] strict = [] := by
  rcases h with h | h
  · refine chapterNewTerms_single_rejected g c strict k hk ?_
    rw [h]
    exact baseTermOf_part_lower k
  · exact chapterNewTerms_single_rejected g c strict k hk h

/-- C2 witness: candidate "Chan" is contained in the lower-cased existing
key "elena [chan]" (though not in its base term "elena"), so it is
rejected. -/
theorem dedup_rejects_contained_candidate_w :
    chapterNewTerms [(str "Elena [Chan]", str "h")] [⟨str "Chan", str "x"⟩]
      false = [] :=
  dedup_rejects_contained_candidate _ _ false (str "Elena [Chan]")
    (by decide) (Or.inr (by decide))

/-- C2 counterexample: the existing base term "elena" is a substring of the
candidate base term "elenara", yet the candidate is ACCEPTED — the
containment check is not symmetric. -/
theorem dedup_not_symmetric :
    baseTermOf (str "Elena") <:+: baseTermOf (str "Elenara") ∧
    chapterNewTerms [(str "Elena", str "the heroine")]
      [⟨str "Elenara", str "a kingdom"⟩] false
      = [(str "Elenara", str "a kingdom")] :=
  ⟨by decide, by decide⟩

/-- A glossary with one existing entry, for exercising the per-chapter cap. -/
def exC1 : Glossary := [(str "zork", str "a wizard")]

/-- Fifteen distinct candidates, none a stoplist word, none colliding with
the existing entry. -/
def candsC1 : List Candidate :=
  [⟨str "Mira01", str "d01"⟩, ⟨str "Mira02", str "d02"⟩,
   ⟨str "Mira03", str "d03"⟩, ⟨str "Mira04", str "d04"⟩,
   ⟨str "Mira05", str "d05"⟩, ⟨str "Mira06", str "d06"⟩,
   ⟨str "Mira07", str "d07"⟩, ⟨str "Mira08", str "d08"⟩,
   ⟨str "Mira09", str "d09"⟩, ⟨str "Mira10", str "d10"⟩,
   ⟨str "Mira11", str "d11"⟩, ⟨str "Mira12", str "d12"⟩,
   ⟨str "Mira13", str "d13"⟩, ⟨str "Mira14", str "d14"⟩,
   ⟨str "Mira15", str "d15"⟩]

/-- C1 (code bug): for a batch of 15 admissible candidates the code accepts
the FIRST TEN in both modes: `MAX_NEW_TERMS_PER_CHAPTER_STRICT` is 10, not
1, so strict mode behaves exactly like non-strict mode, contradicting the
claim (and the `--strict_glossary` help text) that strict mode accepts one
term per chapter. -/
theorem strict_mode_accepts_ten :
    MAX_NEW_TERMS_PER_CHAPTER_STRICT = 10 ∧
    (chapterNewTerms exC1 candsC1 true).length = 10 ∧
    chapterNewTerms exC1 candsC1 true = chapterNewTerms exC1 candsC1 false ∧
    (chapterNewTerms exC1 candsC1 false).map Prod.fst
      = (candsC1.take 10).map Candidate.term :=
  ⟨rfl, by decide, by decide, by decide⟩

instance (g : Glossary) : Decidable (storeInvariant g) := by
  unfold storeInvariant
  infer_instance

/-- C3 counterexample: the one-entry store satisfies the invariant, but one
merge of a batch containing both "Elena" and "elena" produces a store with
two entries whose base terms coincide — the filter never compares candidates
of the same batch against each other. -/
theorem store_invariant_broken_in_batch :
    storeInvariant [(str "Zork", str "z")] ∧
    ¬ storeInvariant (mergeChapter [(str "Zork", str "z")]
        [⟨str "Elena", str "a"⟩, ⟨str "elena", str "b"⟩] false) :=
  ⟨by decide, by decide⟩

/-- C3 (corrected): every key newly added by one merge into a nonempty store
did pass the code's dedup check against the pre-merge store: its lower-cased
full term and its base term differ from every lower-cased existing key, and
its base term is not a substring of any lower-cased existing key.  (Two
candidates of the same batch are never checked against each other, and the
reverse containment direction is never checked, so the spec's global
invariant does not hold.) -/
theorem merged_new_key_was_checked (g : Glossary) (cands : List Candidate)
    (strict : Bool) (k : Str) (hne : g ≠ [])
    (hmem : k ∈ (mergeChapter g cands strict).map Prod.fst)
    (hnew : k ∉ g.map Prod.fst) :
    lowerStr k ∉ g.map (fun p => lowerStr p.1) ∧
    baseTermOf k ∉ g.map (fun p => lowerStr p.1) ∧
    ∀ e ∈ g.map (fun p => lowerStr p.1), ¬ (baseTermOf k <:+: lowerStr e) := by
  rcases keys_dictUpdate hmem with h1 | h1
  · exact absurd h1 hnew
  · have e1 : chapterNewTerms g cands strict
        = dictUpdate [] ((filteredTerms g cands).take
            (if strict then MAX_NEW_TERMS_PER_CHAPTER_STRICT
             else MAX_NEW_TERMS_PER_CHAPTER)) := rfl
    rw [e1] at h1
    rcases keys_dictUpdate h1 with h2 | h2
    · simp at h2
    · have h3 : k ∈ (filteredTerms g cands).map Prod.fst := by
        rcases List.mem_map.mp h2 with ⟨p, hp, he⟩
        exact List.mem_map.mpr ⟨p, List.take_subset _ _ hp, he⟩
      rcases List.mem_map.mp h3 with ⟨p, hp, he⟩
      obtain ⟨p1, p2⟩ := p
      have he2 : p1 = k := he
      subst he2
      exact filteredTerms_sound hne hp

/-- C3 witness: merging the batch ["Elena"] into the store [("Zork", "z")]
adds the key "Elena", which indeed passed every dedup comparison against
the pre-merge store. -/
theorem merged_new_key_was_checked_w :
    lowerStr (str "Elena")
      ∉ [((str "Zork"), (str "z"))].map (fun p => lowerStr p.1) ∧
    baseTermOf (str "Elena")
      ∉ [((str "Zork"), (str "z"))].map (fun p => lowerStr p.1) ∧
    ∀ e ∈ [((str "Zork"), (str "z"))].map (fun p => lowerStr p.1),
      ¬ (baseTermOf (str "Elena") <:+: lowerStr e) :=
  merged_new_key_was_checked [(str "Zork", str "z")] [⟨str "Elena", str "a"⟩]
    false (str "Elena") (by decide) (by decide) (by decide)

/-! ### Claim C9: chapter-level failure isolation -/

/-- C9: when the translate call for a chapter fails, the run state is left
exactly as it was — no output file is written for that chapter and the
glossary is untouched — and the loop continues with the remaining
chapters. -/
theorem failed_chapter_no_effect (oracle : Str → TranslateOutcome)
    (noGlossary strict : Bool) (st : RunState) (f : Str) (fs : List Str)
    (h : oracle f = TranslateOutcome.err) :
    processFile oracle noGlossary strict st f = st ∧
    runChapters oracle noGlossary strict st (f :: fs)
      = runChapters oracle noGlossary strict st fs := by
  have h1 : processFile oracle noGlossary strict st f = st := by
    unfold processFile
    split
    · rfl
    · rw [h]
  refine ⟨h1, ?_⟩
  show runChapters oracle noGlossary strict
    (processFile oracle noGlossary strict st f) fs = _
  rw [h1]

/-- An oracle for which every translate call fails. -/
def oracleErr : Str → TranslateOutcome := fun _ => TranslateOutcome.err

/-- C9 witness: with a failing oracle, processing a chapter leaves the empty
run state unchanged and the loop proceeds to the next file. -/
theorem failed_chapter_no_effect_w :
    processFile oracleErr false false ⟨[], []⟩ (str "ch1.txt") = ⟨[], []⟩ ∧
    runChapters oracleErr false false ⟨[], []⟩ [str "ch1.txt", str "ch2.txt"]
      = runChapters oracleErr false false ⟨[], []⟩ [str "ch2.txt"] :=
  failed_chapter_no_effect oracleErr false false ⟨[], []⟩ (str "ch1.txt")
    [str "ch2.txt"] rfl

/-! ### Claim C8: loader behaviour on malformed lines -/

theorem stripChars_subset {c : Char} {s : Str} (h : c ∈ stripChars s) :
    c ∈ s := by
  obtain ⟨a, b, heq⟩ := stripChars_part s
  rw [← heq]
  simp only [List.mem_append]
  exact Or.inl (Or.inr h)

theorem parseLine_no_colon {acc : Glossary} {l : Str} (h : ':' ∉ l) :
    parseLine acc l = acc := by
  unfold parseLine
  exact if_neg (fun hc => h hc.2)

theorem cleanupLine_no_colon {acc : Glossary} {l : Str} (h : ':' ∉ l) :
    cleanupLine acc l = acc := by
  simp only [cleanupLine]
  exact if_neg (fun hc => h (stripChars_subset hc.2))

theorem cleanupLine_nonempty {acc : Glossary} {l : Str}
    (hacc : ∀ p ∈ acc, p.1 ≠ [] ∧ p.2 ≠ []) :
    ∀ p ∈ cleanupLine acc l, p.1 ≠ [] ∧ p.2 ≠ [] := by
  intro p hp
  simp only [cleanupLine] at hp
  split at hp
  · split at hp
    · rcases mem_dictInsert hp with h1 | h1
      · exact hacc p h1
      · rename_i hok
        rw [h1]
        exact hok
    · exact hacc p hp
  · exact hacc p hp

theorem cleanup_fold_nonempty (lines : List Str) (acc : Glossary)
    (hacc : ∀ p ∈ acc, p.1 ≠ [] ∧ p.2 ≠ []) :
    ∀ p ∈ lines.foldl cleanupLine acc, p.1 ≠ [] ∧ p.2 ≠ [] := by
  induction lines generalizing acc with
  | nil => exact hacc
  | cons l ls ih => exact ih _ (cleanupLine_nonempty hacc)

theorem fold_no_colon_translator (lines : List Str) (acc : Glossary)
    (h : ∀ l ∈ lines, ':' ∉ l) : lines.foldl parseLine acc = acc := by
  induction lines generalizing acc with
  | nil => rfl
  | cons l ls ih =>
    show (ls.foldl parseLine (parseLine acc l)) = acc
    rw [parseLine_no_colon (h l (List.mem_cons_self l ls))]
    exact ih acc (fun x hx => h x (List.mem_cons_of_mem l hx))

theorem fold_no_colon_cleanup (lines : List Str) (acc : Glossary)
    (h : ∀ l ∈ lines, ':' ∉ l) : lines.foldl cleanupLine acc = acc := by
  induction lines generalizing acc with
  | nil => rfl
  | cons l ls ih =>
    show (ls.foldl cleanupLine (cleanupLine acc l)) = acc
    rw [cleanupLine_no_colon (h l (List.mem_cons_self l ls))]
    exact ih acc (fun x hx => h x (List.mem_cons_of_mem l hx))

/-- A line that is blank (strips to nothing) is skipped by both loaders,
whatever the accumulated glossary. -/
theorem parseLine_blank {acc : Glossary} {l : Str}
    (h : stripChars l = []) : parseLine acc l = acc := by
  unfold parseLine
  exact if_neg (fun hc => hc.1 h)

theorem cleanupLine_blank {acc : Glossary} {l : Str}
    (h : stripChars l = []) : cleanupLine acc l = acc := by
  simp only [cleanupLine]
  exact if_neg (fun hc => hc.1 h)

/-- `Config._load_glossary`'s fold ignores exactly the lines that fail its
guard: folding over all lines equals folding over the well-formed lines
only, for every file content and every starting accumulator. -/
theorem parse_fold_filter : ∀ (lines : List Str) (acc : Glossary),
    lines.foldl parseLine acc
      = (lines.filter
          (fun x => decide (stripChars x ≠ [] ∧ ':' ∈ x))).foldl
          parseLine acc := by
  intro lines
  induction lines with
  | nil => intro _; rfl
  | cons l ls ih =>
    intro acc
    by_cases hg : stripChars l ≠ [] ∧ ':' ∈ l
    · rw [List.filter_cons, if_pos (by simpa using hg)]
      show ls.foldl parseLine (parseLine acc l)
          = (ls.filter _).foldl parseLine (parseLine acc l)
      exact ih (parseLine acc l)
    · rw [List.filter_cons, if_neg (by simpa using hg)]
      show ls.foldl parseLine (parseLine acc l) = _
      have hskip : parseLine acc l = acc := by
        unfold parseLine
        exact if_neg hg
      rw [hskip]
      exact ih acc

/-- C8 (corrected): a line without a colon, or a blank line, is skipped by
both loaders on EVERY file (it leaves the fold state unchanged); loading any
content with the translator's loader equals folding over its well-formed
lines only, so malformed lines never make the load fail; every entry loaded
by the cleanup loader has a nonempty term and definition; a missing file
yields an empty store in both loaders.  (The translator's own loader does
NOT skip lines with an empty term or empty definition — see the
counterexample.) -/
theorem loaders_skip_malformed_lines (acc : Glossary) (l : Str)
    (content : Str) :
    ((':' ∉ l ∨ stripChars l = []) →
      parseLine acc l = acc ∧ cleanupLine acc l = acc) ∧
    (_load_glossary (some content)
      = ((splitOnChar '\n' (stripChars content)).filter
          (fun x => decide (stripChars x ≠ [] ∧ ':' ∈ x))).foldl
          parseLine []) ∧
    (∀ p ∈ load_glossary_cleanup (some content), p.1 ≠ [] ∧ p.2 ≠ []) ∧
    _load_glossary none = [] ∧ load_glossary_cleanup none = [] := by
  refine ⟨?_, parse_fold_filter _ [],
    cleanup_fold_nonempty _ [] (by intro p hp; cases hp), rfl, rfl⟩
  rintro (h | h)
  · exact ⟨parseLine_no_colon h, cleanupLine_no_colon h⟩
  · exact ⟨parseLine_blank h, cleanupLine_blank h⟩

/-- C8 witness: in the middle of a mixed file state, a colon-free line
leaves both loaders' fold state untouched. -/
theorem loaders_skip_malformed_lines_w :
    parseLine [(str "Mira", str "a girl")] (str "no colon here")
      = [(str "Mira", str "a girl")] ∧
    cleanupLine [(str "Mira", str "a girl")] (str "no colon here")
      = [(str "Mira", str "a girl")] :=
  (loaders_skip_malformed_lines [(str "Mira", str "a girl")]
    (str "no colon here") []).1 (Or.inl (by decide))

/-- C8 counterexample: the malformed line ": x" (empty term) is NOT skipped
by `Config._load_glossary`: it is loaded as an entry with an empty term,
contradicting the claim that every malformed line is skipped. -/
theorem load_keeps_empty_term :
    _load_glossary (some (str ": x\n")) = [([], str "x")] := by decide

/-! ### Claim C7: save / load round-trip -/

/-- The head of the string, when present, is not whitespace. -/
def headNS (s : Str) : Prop := ∀ c, s.head? = some c → isPySpace c = false

/-- The last character of the string, when present, is not whitespace. -/
def lastNS (s : Str) : Prop := ∀ c, s.getLast? = some c → isPySpace c = false

theorem stripChars_length_le_drop (s : Str) :
    (stripChars s).length ≤ (s.dropWhile isPySpace).length := by
  unfold stripChars
  rw [List.length_reverse]
  have h := (List.dropWhile_sublist
    (l := (s.dropWhile isPySpace).reverse) isPySpace).length_le
  rw [List.length_reverse] at h
  exact h

theorem strip_fixed_headNS {s : Str} (h : stripChars s = s) : headNS s := by
  intro c hc
  cases s with
  | nil => cases hc
  | cons a s' =>
    have hac : a = c := by cases hc; rfl
    by_contra hsp
    rw [Bool.not_eq_false] at hsp
    have hd : (a :: s').dropWhile isPySpace = s'.dropWhile isPySpace := by
      rw [List.dropWhile_cons, if_pos (hac ▸ hsp)]
    have h1 := stripChars_length_le_drop (a :: s')
    rw [hd, h] at h1
    have h2 := (List.dropWhile_sublist (l := s') isPySpace).length_le
    simp only [List.length_cons] at h1
    omega

theorem strip_fixed_lastNS {s : Str} (h : stripChars s = s) : lastNS s := by
  intro c hc
  by_contra hsp
  rw [Bool.not_eq_false] at hsp
  have hDne : s.dropWhile isPySpace ≠ [] := by
    intro hnil
    have hstrip : stripChars s = [] := by
      unfold stripChars
      rw [hnil]
      rfl
    rw [h] at hstrip
    rw [hstrip] at hc
    cases hc
  have hlast : (s.dropWhile isPySpace).getLast? = some c := by
    have hsplit : s.takeWhile isPySpace ++ s.dropWhile isPySpace = s :=
      List.takeWhile_append_dropWhile _ _
    rw [← hsplit, List.getLast?_append] at hc
    cases hDl : (s.dropWhile isPySpace).getLast? with
    | none => exact absurd (List.getLast?_eq_none_iff.mp hDl) hDne
    | some d =>
      rw [hDl, Option.or_some] at hc
      exact hc
  have hrev : (s.dropWhile isPySpace).reverse.head? = some c := by
    rw [← List.getLast?_eq_head?_reverse]
    exact hlast
  obtain ⟨T, hT⟩ : ∃ T, (s.dropWhile isPySpace).reverse = c :: T := by
    cases hDr : (s.dropWhile isPySpace).reverse with
    | nil => rw [hDr] at hrev; cases hrev
    | cons x T =>
      rw [hDr] at hrev
      cases hrev
      exact ⟨T, rfl⟩
  have h1 : (stripChars s).length ≤ T.length := by
    unfold stripChars
    rw [hT, List.length_reverse, List.dropWhile_cons, if_pos hsp]
    exact (List.dropWhile_sublist (l := T) isPySpace).length_le
  have h2 : (s.dropWhile isPySpace).length ≤ s.length :=
    (List.dropWhile_sublist (l := s) isPySpace).length_le
  have h3 : (s.dropWhile isPySpace).reverse.length
      = (s.dropWhile isPySpace).length := List.length_reverse _
  rw [h] at h1
  rw [hT] at h3
  simp only [List.length_cons] at h3
  omega

theorem strip_eq_self_of_ends {s : Str} (h1 : headNS s) (h2 : lastNS s) :
    stripChars s = s := by
  cases s with
  | nil => rfl
  | cons a s' =>
    have ha : isPySpace a = false := h1 a rfl
    unfold stripChars
    rw [List.dropWhile_cons, if_neg (by simp [ha])]
    cases hr : (a :: s').reverse with
    | nil => exact absurd hr (by simp)
    | cons d T =>
      have hd : (a :: s').getLast? = some d := by
        rw [List.getLast?_eq_head?_reverse, hr]
        rfl
      have hdns := h2 d hd
      rw [List.dropWhile_cons, if_neg (by simp [hdns]), ← hr,
        List.reverse_reverse]

theorem strip_ws_prefix {s t : Str} (h : ∀ c ∈ t, isPySpace c) :
    stripChars (t ++ s) = stripChars s := by
  unfold stripChars
  rw [List.dropWhile_append, List.dropWhile_eq_nil_iff.mpr h]
  simp

theorem strip_append_ws {s t : Str} (h : ∀ c ∈ t, isPySpace c) :
    stripChars (s ++ t) = stripChars s := by
  unfold stripChars
  rw [List.dropWhile_append]
  split
  · rename_i hemp
    rw [List.isEmpty_iff] at hemp
    rw [List.dropWhile_eq_nil_iff.mpr h, hemp]
  · rw [List.reverse_append, List.dropWhile_append,
      List.dropWhile_eq_nil_iff.mpr
        (fun x hx => h x (List.mem_reverse.mp hx))]
    simp

theorem headNS_append {a b : Str} (h : headNS a) (hne : a ≠ []) :
    headNS (a ++ b) := by
  cases a with
  | nil => exact absurd rfl hne
  | cons x a' =>
    intro c hc
    have hx : ((x :: a') ++ b).head? = some x := rfl
    rw [hx] at hc
    cases hc
    exact h x rfl

theorem lastNS_append {a b : Str} (h : lastNS b) (hne : b ≠ []) :
    lastNS (a ++ b) := by
  intro c hc
  rw [List.getLast?_append] at hc
  cases hb : b.getLast? with
  | none => exact absurd (List.getLast?_eq_none_iff.mp hb) hne
  | some d =>
    rw [hb, Option.or_some] at hc
    have hdc : d = c := Option.some.inj hc
    rw [← hdc]
    exact h d hb

theorem joinNL_cons_ne_nil {l : Str} {ls : List Str} (h : l ≠ []) :
    joinNL (l :: ls) ≠ [] := by
  cases ls with
  | nil => exact h
  | cons y ys => simp [joinNL]

theorem headNS_joinNL {l : Str} {ls : List Str} (h : headNS l) (hne : l ≠ []) :
    headNS (joinNL (l :: ls)) := by
  cases ls with
  | nil => exact h
  | cons y ys => exact headNS_append h hne

theorem lastNS_joinNL : ∀ {lines : List Str},
    (∀ l ∈ lines, lastNS l ∧ l ≠ []) → lastNS (joinNL lines) := by
  intro lines
  induction lines with
  | nil => intro _ c hc; cases hc
  | cons l ls ih =>
    intro h
    cases ls with
    | nil => exact (h l (List.mem_cons_self l [])).1
    | cons y ys =>
      show lastNS (l ++ '\n' :: joinNL (y :: ys))
      have hJ : joinNL (y :: ys) ≠ [] :=
        joinNL_cons_ne_nil (h y (List.mem_cons_of_mem l
          (List.mem_cons_self y ys))).2
      have htail : lastNS (joinNL (y :: ys)) :=
        ih (fun x hx => h x (List.mem_cons_of_mem l hx))
      exact lastNS_append (b := '\n' :: joinNL (y :: ys))
        (by
          have : '\n' :: joinNL (y :: ys) = [ '\n' ] ++ joinNL (y :: ys) := rfl
          rw [this]
          exact lastNS_append htail hJ)
        (by simp)

theorem splitOnChar_ne_nil (c : Char) (s : Str) : splitOnChar c s ≠ [] := by
  induction s with
  | nil => simp [splitOnChar]
  | cons x xs ih =>
    have e : splitOnChar c (x :: xs)
        = match splitOnChar c xs with
          | [] => [[]]
          | l :: ls => if x = c then [] :: l :: ls else (x :: l) :: ls := rfl
    rw [e]
    cases h : splitOnChar c xs with
    | nil => simp
    | cons l ls => by_cases hxc : x = c <;> simp [hxc]

theorem splitOnChar_no_sep {c : Char} {s : Str} (h : c ∉ s) :
    splitOnChar c s = [s] := by
  induction s with
  | nil => rfl
  | cons x xs ih =>
    have hx : x ≠ c := fun he => h (he ▸ List.mem_cons_self x xs)
    have hxs : c ∉ xs := fun hm => h (List.mem_cons_of_mem x hm)
    have e : splitOnChar c (x :: xs)
        = match splitOnChar c xs with
          | [] => [[]]
          | l :: ls => if x = c then [] :: l :: ls else (x :: l) :: ls := rfl
    rw [e, ih hxs]
    show (if x = c then [] :: xs :: [] else (x :: xs) :: []) = [x :: xs]
    rw [if_neg hx]

theorem splitOnChar_append_sep {c : Char} {t : Str} : ∀ {l : Str}, c ∉ l →
    splitOnChar c (l ++ c :: t) = l :: splitOnChar c t := by
  intro l
  induction l with
  | nil =>
    intro _
    have e : splitOnChar c (c :: t)
        = match splitOnChar c t with
          | [] => [[]]
          | l :: ls => if c = c then [] :: l :: ls else (c :: l) :: ls := rfl
    cases h : splitOnChar c t with
    | nil => exact absurd h (splitOnChar_ne_nil c t)
    | cons r rs =>
      rw [List.nil_append, e, h]
      show (if c = c then [] :: r :: rs else (c :: r) :: rs) = [] :: r :: rs
      rw [if_pos rfl]
  | cons y l' ih =>
    intro hy
    have hyc : y ≠ c := fun he => hy (he ▸ List.mem_cons_self y l')
    have hl' : c ∉ l' := fun hm => hy (List.mem_cons_of_mem y hm)
    have e : splitOnChar c (y :: (l' ++ c :: t))
        = match splitOnChar c (l' ++ c :: t) with
          | [] => [[]]
          | l :: ls => if y = c then [] :: l :: ls else (y :: l) :: ls := rfl
    rw [List.cons_append, e, ih hl']
    show (if y = c then [] :: l' :: splitOnChar c t
          else (y :: l') :: splitOnChar c t) = (y :: l') :: splitOnChar c t
    rw [if_neg hyc]

theorem splitOnChar_joinNL : ∀ {lines : List Str}, lines ≠ [] →
    (∀ l ∈ lines, '\n' ∉ l) →
    splitOnChar '\n' (joinNL lines) = lines := by
  intro lines
  induction lines with
  | nil => intro h _; exact absurd rfl h
  | cons l ls ih =>
    intro _ h
    cases ls with
    | nil => exact splitOnChar_no_sep (h l (List.mem_cons_self l []))
    | cons y ys =>
      show splitOnChar '\n' (l ++ '\n' :: joinNL (y :: ys)) = l :: y :: ys
      rw [splitOnChar_append_sep (h l (List.mem_cons_self l _))]
      rw [ih (by simp) (fun x hx => h x (List.mem_cons_of_mem l hx))]

theorem dictInsert_fresh {g : Glossary} {k v : Str}
    (h : k ∉ g.map Prod.fst) : dictInsert g k v = g ++ [(k, v)] := by
  unfold dictInsert
  rw [if_neg]
  intro hany
  rcases List.any_eq_true.mp hany with ⟨p, hp, hpe⟩
  exact h (List.mem_map.mpr ⟨p, hp, by simpa using hpe⟩)

theorem parseLine_lineOf {acc : Glossary} {p : Str × Str}
    (ht1 : stripChars p.1 = p.1) (ht2 : ':' ∉ p.1)
    (hd1 : stripChars p.2 = p.2)
    (hfresh : p.1 ∉ acc.map Prod.fst) :
    parseLine acc (lineOf p) = acc ++ [p] := by
  unfold parseLine lineOf
  rw [if_pos ?cond]
  case cond =>
    refine ⟨?_, ?_⟩
    · intro hnil
      rw [stripChars_eq_nil_iff] at hnil
      exact absurd (hnil ':' (by simp)) (by decide)
    · simp
  have hpos : ∀ a ∈ p.1, (fun c => decide (c ≠ ':')) a = true := by
    intro a ha
    have hno : a ≠ ':' := fun he => ht2 (he ▸ ha)
    simp [hno]
  have htake : (p.1 ++ ':' :: ' ' :: p.2).takeWhile
      (fun c => decide (c ≠ ':')) = p.1 := by
    rw [List.takeWhile_append_of_pos hpos, List.takeWhile_cons]
    simp
  have hdrop : (p.1 ++ ':' :: ' ' :: p.2).dropWhile
      (fun c => decide (c ≠ ':')) = ':' :: ' ' :: p.2 := by
    rw [List.dropWhile_append_of_pos hpos, List.dropWhile_cons]
    simp
  have hsp : stripChars (' ' :: p.2) = p.2 := by
    have e : (' ' :: p.2) = [ ' ' ] ++ p.2 := rfl
    rw [e, strip_ws_prefix (by intro c hc; simp at hc; rw [hc]; rfl), hd1]
  rw [htake, hdrop, ht1, List.tail_cons, hsp, dictInsert_fresh hfresh]

theorem parse_fold_lines : ∀ (g acc : Glossary),
    (g.map Prod.fst).Nodup →
    (∀ p ∈ g, stripChars p.1 = p.1 ∧ ':' ∉ p.1 ∧ stripChars p.2 = p.2) →
    (∀ p ∈ g, p.1 ∉ acc.map Prod.fst) →
    (g.map lineOf).foldl parseLine acc = acc ++ g := by
  intro g
  induction g with
  | nil => intro acc _ _ _; simp
  | cons p g' ih =>
    intro acc hnd hcond hdisj
    have hmem : p ∈ p :: g' := List.mem_cons_self p g'
    show (g'.map lineOf).foldl parseLine (parseLine acc (lineOf p))
        = acc ++ p :: g'
    rw [parseLine_lineOf (hcond p hmem).1 (hcond p hmem).2.1
      (hcond p hmem).2.2 (hdisj p hmem)]
    rw [ih (acc ++ [p])
      (by rw [List.map_cons, List.nodup_cons] at hnd; exact hnd.2)
      (fun q hq => hcond q (List.mem_cons_of_mem p hq))
      ?disj]
    · simp
    case disj =>
      intro q hq
      rw [List.map_append, List.mem_append]
      rintro (h1 | h1)
      · exact hdisj q (List.mem_cons_of_mem p hq) h1
      · rw [List.map_cons, List.nodup_cons] at hnd
        simp only [List.map_cons, List.map_nil, List.mem_singleton] at h1
        exact hnd.1 (h1 ▸ List.mem_map_of_mem Prod.fst hq)

/-- C7 (corrected): for stores whose terms are stripped, nonempty, and free
of colons and newlines, and whose definitions are stripped, nonempty and
free of newlines (with pairwise distinct keys and no capacity truncation),
`save` followed by `load` restores exactly the same entries in the same
order.  Terms containing a colon break the round-trip (see the
counterexample). -/
theorem save_load_roundtrip (g : Glossary)
    (hlen : g.length ≤ MAX_GLOSSARY_ENTRIES)
    (hnd : (g.map Prod.fst).Nodup)
    (hterm : ∀ p ∈ g, p.1 ≠ [] ∧ stripChars p.1 = p.1 ∧ ':' ∉ p.1 ∧
      '\n' ∉ p.1)
    (hdef : ∀ p ∈ g, p.2 ≠ [] ∧ stripChars p.2 = p.2 ∧ '\n' ∉ p.2) :
    _load_glossary (some (saveOutput g)) = g := by
  have hsave : save_glossary g = g := by
    unfold save_glossary
    rw [if_neg (by omega)]
  show parseGlossary (saveOutput g) = g
  unfold saveOutput
  rw [hsave]
  cases g with
  | nil => decide
  | cons p g' =>
    have hlineNE : ∀ l ∈ (p :: g').map lineOf, l ≠ [] := by
      intro l hl
      rcases List.mem_map.mp hl with ⟨q, _, he⟩
      rw [← he]
      unfold lineOf
      simp
    have hlineNoNL : ∀ l ∈ (p :: g').map lineOf, '\n' ∉ l := by
      intro l hl
      rcases List.mem_map.mp hl with ⟨q, hq, he⟩
      rw [← he]
      unfold lineOf
      intro hmem
      rcases List.mem_append.mp hmem with h1 | h1
      · exact (hterm q hq).2.2.2 h1
      · simp only [List.mem_cons] at h1
        rcases h1 with h1 | h1 | h1
        · exact absurd h1 (by decide)
        · exact absurd h1 (by decide)
        · exact (hdef q hq).2.2 h1
    have hH : headNS (joinNL ((p :: g').map lineOf)) := by
      rw [List.map_cons]
      apply headNS_joinNL
      · apply headNS_append (strip_fixed_headNS (hterm p (by simp)).2.1)
          (hterm p (by simp)).1
      · unfold lineOf
        simp
    have hL : lastNS (joinNL ((p :: g').map lineOf)) := by
      apply lastNS_joinNL
      intro l hl
      rcases List.mem_map.mp hl with ⟨q, hq, he⟩
      constructor
      · rw [← he]
        unfold lineOf
        apply lastNS_append (b := ':' :: ' ' :: q.2)
        · have e2 : ':' :: ' ' :: q.2 = [ ':', ' ' ] ++ q.2 := rfl
          rw [e2]
          exact lastNS_append (strip_fixed_lastNS (hdef q hq).2.1)
            (hdef q hq).1
        · simp
      · rw [← he]
        unfold lineOf
        simp
    unfold parseGlossary renderGlossary
    rw [strip_append_ws (by intro c hc; simp at hc; rw [hc]; rfl)]
    rw [strip_eq_self_of_ends hH hL]
    rw [splitOnChar_joinNL (by simp) hlineNoNL]
    have := parse_fold_lines (p :: g') [] hnd
      (fun q hq => ⟨(hterm q hq).2.1, (hterm q hq).2.2.1, (hdef q hq).2.1⟩)
      (fun q _ => by simp)
    rw [this]
    simp

/-- C7 witness: a two-entry well-formed store survives the save / load
round-trip unchanged, in order. -/
theorem save_load_roundtrip_w :
    _load_glossary (some (saveOutput
      [(str "Elena", str "the heroine"), (str "Zork", str "a wizard")]))
      = [(str "Elena", str "the heroine"), (str "Zork", str "a wizard")] :=
  save_load_roundtrip _ (by decide) (by decide)
    (by decide) (by decide)

/-- C7 counterexample: a store whose single term contains a colon does not
round-trip: saving writes the line "a:b: c", which loads back as the entry
("a", "b: c") instead of ("a:b", "c") — even though the store is far below
the capacity cap. -/
theorem save_load_roundtrip_fails_on_colon :
    ([(str "a:b", str "c")] : Glossary).length ≤ MAX_GLOSSARY_ENTRIES ∧
    _load_glossary (some (saveOutput [(str "a:b", str "c")]))
      = [(str "a", str "b: c")] ∧
    [(str "a", str "b: c")] ≠ ([(str "a:b", str "c")] : Glossary) := by
  refine ⟨by decide, by decide, by decide⟩

/-! ### Claim C10: paragraph-break heuristic -/

theorem part_cons {a : Str} {x : Char} {l : Str} (h : a <:+: l) :
    a <:+: x :: l := by
  obtain ⟨s, t, rfl⟩ := h
  exact ⟨x :: s, t, rfl⟩

theorem sub1_match {c : Char} {rest : Str} {u : Char} {r2 : Str}
    (hp : isSentencePunct c = true)
    (hd : rest.dropWhile isPySpace = u :: r2)
    (hcond : rest.takeWhile isPySpace ≠ [] ∧ isUpperAZ u = true) :
    sub1 (c :: rest) = c :: '\n' :: '\n' :: u :: sub1 r2 := by
  rw [sub1.eq_def]
  simp only
  rw [if_pos hp]
  split
  · rename_i u1 r21 heq
    rw [hd] at heq
    injection heq with h1 h2
    subst h1
    subst h2
    rw [if_pos hcond]
  · rename_i heq
    rw [hd] at heq
    cases heq

theorem sub1_nomatch1 {c : Char} {rest : Str} {u : Char} {r2 : Str}
    (hd : rest.dropWhile isPySpace = u :: r2)
    (hcond : ¬ (rest.takeWhile isPySpace ≠ [] ∧ isUpperAZ u = true)) :
    sub1 (c :: rest) = c :: sub1 rest := by
  rw [sub1.eq_def]
  simp only
  by_cases hp : isSentencePunct c = true
  · rw [if_pos hp]
    split
    · rename_i u1 r21 heq
      rw [hd] at heq
      injection heq with h1 h2
      subst h1
      subst h2
      rw [if_neg hcond]
    · rfl
  · rw [if_neg hp]

theorem sub1_nomatch2 {c : Char} {rest : Str}
    (hd : rest.dropWhile isPySpace = []) :
    sub1 (c :: rest) = c :: sub1 rest := by
  rw [sub1.eq_def]
  simp only
  by_cases hp : isSentencePunct c = true
  · rw [if_pos hp]
    split
    · rename_i u1 r21 heq
      rw [hd] at heq
      cases heq
    · rfl
  · rw [if_neg hp]

theorem sub1_nopunct {c : Char} {rest : Str}
    (hp : isSentencePunct c = false) :
    sub1 (c :: rest) = c :: sub1 rest := by
  rw [sub1.eq_def]
  simp only
  rw [if_neg (by simp [hp])]

/-- If the normalised text contains sentence punctuation followed by
whitespace and a capital letter, the first substitution inserts a blank
line. -/
theorem sub1_inserts_break : ∀ s : Str, hasBoundaryB s = true →
    [ '\n', '\n' ] <:+: sub1 s := by
  intro s
  induction s with
  | nil => intro h; cases h
  | cons c rest ih =>
    intro h
    rw [hasBoundaryB, Bool.or_eq_true] at h
    cases hd : rest.dropWhile isPySpace with
    | nil =>
      have hB : hasBoundaryB rest = true := by
        rcases h with hA | hB
        · rw [hd] at hA
          simp at hA
        · exact hB
      rw [sub1_nomatch2 hd]
      exact part_cons (ih hB)
    | cons u r2 =>
      by_cases hp : isSentencePunct c = true
      · by_cases hcond : rest.takeWhile isPySpace ≠ [] ∧ isUpperAZ u = true
        · rw [sub1_match hp hd hcond]
          exact ⟨[c], u :: sub1 r2, rfl⟩
        · have hB : hasBoundaryB rest = true := by
            rcases h with hA | hB
            · rw [hd] at hA
              simp only [Bool.and_eq_true, decide_eq_true_eq] at hA
              exact absurd ⟨hA.2.1, hA.2.2⟩ hcond
            · exact hB
          rw [sub1_nomatch1 hd hcond]
          exact part_cons (ih hB)
      · have hB : hasBoundaryB rest = true := by
          rcases h with hA | hB
          · rw [Bool.and_eq_true] at hA
            exact absurd hA.1 hp
          · exact hB
        rw [sub1_nopunct (by simpa using hp)]
        exact part_cons (ih hB)

theorem sub2_quote_match {c q : Char} {rest2 : Str} {u : Char} {r2 : Str}
    (hp : isSentencePunct c = true) (hq : q.toNat = 34)
    (hd : rest2.dropWhile isPySpace = u :: r2)
    (hcond : rest2.takeWhile isPySpace ≠ [] ∧ isUpperAZ u = true) :
    sub2 (c :: q :: rest2) = c :: q :: '\n' :: '\n' :: u :: sub2 r2 := by
  rw [sub2.eq_def]
  simp only
  rw [if_pos hp, if_pos hq]
  split
  · rename_i u1 r21 heq
    rw [hd] at heq
    injection heq with h1 h2
    subst h1
    subst h2
    rw [if_pos hcond]
  · rename_i heq
    rw [hd] at heq
    cases heq

theorem sub2_quote_nomatch1 {c q : Char} {rest2 : Str} {u : Char} {r2 : Str}
    (hp : isSentencePunct c = true) (hq : q.toNat = 34)
    (hd : rest2.dropWhile isPySpace = u :: r2)
    (hcond : ¬ (rest2.takeWhile isPySpace ≠ [] ∧ isUpperAZ u = true)) :
    sub2 (c :: q :: rest2) = c :: sub2 (q :: rest2) := by
  rw [sub2.eq_def]
  simp only
  rw [if_pos hp, if_pos hq]
  split
  · rename_i u1 r21 heq
    rw [hd] at heq
    injection heq with h1 h2
    subst h1
    subst h2
    rw [if_neg hcond]
  · rfl

theorem sub2_quote_nomatch2 {c q : Char} {rest2 : Str}
    (hp : isSentencePunct c = true) (hq : q.toNat = 34)
    (hd : rest2.dropWhile isPySpace = []) :
    sub2 (c :: q :: rest2) = c :: sub2 (q :: rest2) := by
  rw [sub2.eq_def]
  simp only
  rw [if_pos hp, if_pos hq]
  split
  · rename_i u1 r21 heq
    rw [hd] at heq
    cases heq
  · rfl

theorem sub2_noquote {c q : Char} {rest2 : Str}
    (hp : isSentencePunct c = true) (hq : ¬ q.toNat = 34) :
    sub2 (c :: q :: rest2) = c :: sub2 (q :: rest2) := by
  rw [sub2.eq_def]
  simp only
  rw [if_pos hp, if_neg hq]

theorem sub2_single {c : Char} (hp : isSentencePunct c = true) :
    sub2 [c] = [c] := by
  rw [sub2.eq_def]
  simp only
  rw [if_pos hp]

theorem sub2_nopunct {c : Char} {rest : Str}
    (hp : isSentencePunct c = false) :
    sub2 (c :: rest) = c :: sub2 rest := by
  rw [sub2.eq_def]
  simp only
  rw [if_neg (by simp [hp])]

/-- The second substitution never destroys a blank line that is already
present. -/
theorem sub2_preserves_break : ∀ s : Str, [ '\n', '\n' ] <:+: s →
    [ '\n', '\n' ] <:+: sub2 s := by
  intro s
  induction s using sub2.induct with
  | case1 =>
    intro h
    have := h.length_le
    simp at this
  | case2 x hp q rest2 hq u r2 hd hcond ih =>
    intro _
    rw [sub2_quote_match hp hq hd hcond]
    exact ⟨[x, q], u :: sub2 r2, rfl⟩
  | case3 x hp q rest2 hq u r2 hd hcond ih =>
    intro h
    rw [sub2_quote_nomatch1 hp hq hd hcond]
    rcases List.infix_cons_iff.mp h with h1 | h1
    · rcases List.cons_prefix_cons.mp h1 with ⟨hx, _⟩
      rw [← hx] at hp
      exact absurd hp (by decide)
    · exact part_cons (ih h1)
  | case4 x hp q rest2 hq hd ih =>
    intro h
    rw [sub2_quote_nomatch2 hp hq hd]
    rcases List.infix_cons_iff.mp h with h1 | h1
    · rcases List.cons_prefix_cons.mp h1 with ⟨hx, _⟩
      rw [← hx] at hp
      exact absurd hp (by decide)
    · exact part_cons (ih h1)
  | case5 x hp q rest2 hq ih =>
    intro h
    rw [sub2_noquote hp hq]
    rcases List.infix_cons_iff.mp h with h1 | h1
    · rcases List.cons_prefix_cons.mp h1 with ⟨hx, _⟩
      rw [← hx] at hp
      exact absurd hp (by decide)
    · exact part_cons (ih h1)
  | case6 x hp =>
    intro h
    have := h.length_le
    simp at this
  | case7 x xs hp ih =>
    intro h
    rw [sub2_nopunct (by simpa using hp)]
    rcases List.infix_cons_iff.mp h with h1 | h1
    · rcases List.cons_prefix_cons.mp h1 with ⟨hx, h2⟩
      obtain ⟨t, ht⟩ := h2
      rw [List.singleton_append] at ht
      rw [← hx, ← ht, sub2_nopunct (by decide)]
      exact ⟨[], sub2 t, rfl⟩
    · exact part_cons (ih h1)

theorem mem_splitOnChar_subset {c : Char} : ∀ {s l : Str},
    l ∈ splitOnChar c s → ∀ x ∈ l, x ∈ s := by
  intro s
  induction s with
  | nil =>
    intro l hl x hx
    simp [splitOnChar] at hl
    subst hl
    cases hx
  | cons y ys ih =>
    intro l hl x hx
    have e : splitOnChar c (y :: ys)
        = match splitOnChar c ys with
          | [] => [[]]
          | m :: ms => if y = c then [] :: m :: ms else (y :: m) :: ms := rfl
    rw [e] at hl
    cases hsp : splitOnChar c ys with
    | nil => exact absurd hsp (splitOnChar_ne_nil c ys)
    | cons m ms =>
      rw [hsp] at hl
      simp only at hl
      by_cases hyc : y = c
      · rw [if_pos hyc] at hl
        rcases List.mem_cons.mp hl with h1 | h1
        · subst h1
          cases hx
        · exact List.mem_cons_of_mem y
            (ih (by rw [hsp]; exact h1) x hx)
      · rw [if_neg hyc] at hl
        rcases List.mem_cons.mp hl with h1 | h1
        · subst h1
          rcases List.mem_cons.mp hx with h2 | h2
          · exact h2 ▸ List.mem_cons_self y ys
          · exact List.mem_cons_of_mem y
              (ih (by rw [hsp]; exact List.mem_cons_self m ms) x h2)
        · exact List.mem_cons_of_mem y
            (ih (by rw [hsp]; exact List.mem_cons_of_mem m h1) x hx)

theorem mem_joinNL : ∀ {ls : List Str} {x : Char}, x ∈ joinNL ls →
    x = '\n' ∨ ∃ l ∈ ls, x ∈ l := by
  intro ls
  induction ls with
  | nil => intro x hx; cases hx
  | cons l ls2 ih =>
    intro x hx
    cases ls2 with
    | nil => exact Or.inr ⟨l, List.mem_cons_self l [], hx⟩
    | cons y ys =>
      have e : joinNL (l :: y :: ys) = l ++ '\n' :: joinNL (y :: ys) := rfl
      rw [e] at hx
      rcases List.mem_append.mp hx with h1 | h1
      · exact Or.inr ⟨l, List.mem_cons_self _ _, h1⟩
      · rcases List.mem_cons.mp h1 with h2 | h2
        · exact Or.inl h2
        · rcases ih h2 with h3 | ⟨m, hm, hxm⟩
          · exact Or.inl h3
          · exact Or.inr ⟨m, List.mem_cons_of_mem l hm, hxm⟩

theorem mem_collapseGo : ∀ (s : Str) (k : Nat) (x : Char),
    x ∈ collapseGo k s → x ∈ s := by
  intro s
  induction s with
  | nil => intro k x hx; cases hx
  | cons c rest ih =>
    intro k x hx
    simp only [collapseGo] at hx
    split at hx
    · split at hx
      · exact List.mem_cons_of_mem c (ih k x hx)
      · rcases List.mem_cons.mp hx with h1 | h1
        · rename_i hcn _
          rw [h1, hcn]
          exact List.mem_cons_self _ _
        · exact List.mem_cons_of_mem c (ih (k + 1) x h1)
    · rcases List.mem_cons.mp hx with h1 | h1
      · rw [h1]
        exact List.mem_cons_self _ _
      · exact List.mem_cons_of_mem c (ih 0 x h1)

/-- An all-whitespace translation normalises to the empty string. -/
theorem normalizeWs_of_all_space {text : Str}
    (h : ∀ c ∈ text, isPySpace c) : normalizeWs text = [] := by
  unfold normalizeWs
  rw [stripChars_eq_nil_iff]
  intro c hc
  unfold collapseNL at hc
  have hc2 := mem_collapseGo _ 0 c hc
  rcases mem_joinNL hc2 with h1 | ⟨l, hl, hcl⟩
  · rw [h1]
    decide
  · rcases List.mem_map.mp hl with ⟨l0, hl0, he⟩
    rw [← he] at hcl
    exact h c (mem_splitOnChar_subset hl0 c (stripChars_subset hcl))

/-- C10: when the whitespace-normalised translation contains no newline,
exceeds 500 characters, and contains sentence-ending punctuation followed by
whitespace and a capital letter, `post_process_translation` inserts at
least one paragraph break (a blank line) before that capital. -/
theorem post_process_inserts_break (text : Str)
    (h1 : '\n' ∉ normalizeWs text)
    (h2 : (normalizeWs text).length > 500)
    (h3 : hasBoundaryB (normalizeWs text) = true) :
    [ '\n', '\n' ] <:+: post_process_translation text := by
  have hne : ¬ (stripChars text = []) := by
    intro hstrip
    have hall := stripChars_eq_nil_iff.mp hstrip
    have h0 := normalizeWs_of_all_space hall
    rw [h0] at h2
    simp at h2
  unfold post_process_translation
  rw [if_neg hne, if_pos ⟨h1, h2⟩]
  exact sub2_preserves_break _ (sub1_inserts_break _ h3)

/-- A concrete 523-character single-paragraph translation with a sentence
boundary in the middle. -/
def textW : Str :=
  List.replicate 260 'a' ++ '.' :: ' ' :: 'B' :: List.replicate 260 'c'

/-- C10 witness: the concrete text gets a paragraph break inserted. -/
theorem post_process_inserts_break_w :
    [ '\n', '\n' ] <:+: post_process_translation textW :=
  post_process_inserts_break textW (by decide) (by decide) (by decide)

example : chapterNewTerms [(str "Elena [Chan]", str "h")]
    [⟨str "Chan", str "x"⟩] false = [] := by decide
example : _load_glossary (some (str "a: b\nno colon\nc: d\n"))
    = [(str "a", str "b"), (str "c", str "d")] := by decide
